import Mathlib

/-!
# Verification of the consensus core of `bitcoin-0.2`

A shallow embedding of the repository's consensus and state-transition
engine, faithful to the Rust sources:

* `src/src/core/transaction.rs`, `src/src/core/validation.rs`,
  `src/src/core/chain.rs` — the live stack exported by `src/src/lib.rs`;
* `src/bitcoin-core-rs/src/block.rs`,
  `src/bitcoin-core-rs/src/consensus/difficulty.rs`,
  `src/bitcoin-core-rs/src/consensus/fork_choice.rs` — the 32-byte-target
  block model that the chain modules are written against;
* `src/src/transaction.rs`, `src/src/validation.rs`, `src/src/block.rs`,
  `src/src/mempool.rs`, `src/src/merkle.rs` — the older parallel stack
  (namespace `V1` below), still carrying the mempool used by the node.

Bytes are `List Nat` with every byte `< 256`; machine integers are `Nat`
(`u32`/`u64`, with explicit saturation where the source saturates) and
`Int` (`i64` timestamps).  External crates are represented explicitly:
`sha2` by an executable FIPS 180-4 SHA-256, `secp256k1` by oracle
parameters, `bincode` by its documented fixed-int little-endian layout.
-/

namespace Bitcoin

/-! ## Bytes and little/big-endian integers -/

/-- Little-endian byte encoding of `n` in `k` bytes (bincode fixed-int layout
for `u32`/`u64`/`usize` fields). -/
def leBytes : Nat → Nat → List Nat
  | 0, _ => []
  | k + 1, n => n % 256 :: leBytes k (n / 256)

/-- Big-endian byte encoding of `n` in `k` bytes (SHA-256 length field and
word serialization). -/
def beBytes : Nat → Nat → List Nat
  | 0, _ => []
  | k + 1, n => beBytes k (n / 256) ++ [n % 256]

/-- The big-endian integer a byte string denotes
(`num_bigint::BigUint::from_bytes_be`). -/
def beNat (bs : List Nat) : Nat :=
  bs.foldl (fun acc b => acc * 256 + b) 0

/-- Rust's lexicographic `Ord` on byte slices and byte arrays, as used by the
source on `[u8; 32]` targets. -/
def bytesCmp : List Nat → List Nat → Ordering
  | [], [] => .eq
  | [], _ :: _ => .lt
  | _ :: _, [] => .gt
  | a :: as_, b :: bs =>
    if a < b then .lt
    else if b < a then .gt
    else bytesCmp as_ bs

/-- Rust `x <= y` on byte slices. -/
def bytesLe (x y : List Nat) : Bool :=
  match bytesCmp x y with
  | .gt => false
  | _ => true

/-- Rust `x < y` on byte slices. -/
def bytesLt (x y : List Nat) : Bool :=
  match bytesCmp x y with
  | .lt => true
  | _ => false

/-! ## SHA-256

Modelled from the spec: §4.1 fixes `sha256(bytes) → 32 bytes`; the source
obtains it from the external `sha2` crate
(`src/src/crypto/signature.rs`, `Sha256::digest`), so the function itself is
not repository code.  It is implemented here as FIPS 180-4 SHA-256,
executable down to bytes. -/

/-- Truncation to a 32-bit word. -/
def w32 (n : Nat) : Nat := n % 4294967296

/-- Rotate a 32-bit word right by `n` bits. -/
def rotr (n x : Nat) : Nat :=
  w32 (Nat.lor (x >>> n) (x <<< (32 - n)))

/-- SHA-256 `Ch` function. -/
def shaCh (x y z : Nat) : Nat :=
  Nat.xor (Nat.land x y) (Nat.land (4294967295 - w32 x) z)

/-- SHA-256 `Maj` function. -/
def shaMaj (x y z : Nat) : Nat :=
  Nat.xor (Nat.land x y) (Nat.xor (Nat.land x z) (Nat.land y z))

/-- SHA-256 `Σ0`. -/
def bsig0 (x : Nat) : Nat := Nat.xor (rotr 2 x) (Nat.xor (rotr 13 x) (rotr 22 x))

/-- SHA-256 `Σ1`. -/
def bsig1 (x : Nat) : Nat := Nat.xor (rotr 6 x) (Nat.xor (rotr 11 x) (rotr 25 x))

/-- SHA-256 `σ0`. -/
def ssig0 (x : Nat) : Nat := Nat.xor (rotr 7 x) (Nat.xor (rotr 18 x) (x >>> 3))

/-- SHA-256 `σ1`. -/
def ssig1 (x : Nat) : Nat := Nat.xor (rotr 17 x) (Nat.xor (rotr 19 x) (x >>> 10))

/-- The 64 SHA-256 round constants, written in decimal. -/
def shaK : List Nat :=
  [1116352408, 1899447441, 3049323471, 3921009573, 961987163,
   1508970993, 2453635748, 2870763221, 3624381080, 310598401,
   607225278, 1426881987, 1925078388, 2162078206, 2614888103,
   3248222580, 3835390401, 4022224774, 264347078, 604807628,
   770255983, 1249150122, 1555081692, 1996064986, 2554220882,
   2821834349, 2952996808, 3210313671, 3336571891, 3584528711,
   113926993, 338241895, 666307205, 773529912, 1294757372,
   1396182291, 1695183700, 1986661051, 2177026350, 2456956037,
   2730485921, 2820302411, 3259730800, 3345764771, 3516065817,
   3600352804, 4094571909, 275423344, 430227734, 506948616,
   659060556, 883997877, 958139571, 1322822218, 1537002063,
   1747873779, 1955562222, 2024104815, 2227730452, 2361852424,
   2428436474, 2756734187, 3204031479, 3329325298]

/-- The eight-word SHA-256 initial state, written in decimal. -/
def shaH0 : List Nat :=
  [1779033703, 3144134277, 1013904242, 2773480762,
   1359893119, 2600822924, 528734635, 1541459225]

/-- Extend a 16-word message block by `fuel` scheduled words. -/
def shaExtend : List Nat → Nat → List Nat
  | ws, 0 => ws
  | ws, fuel + 1 =>
    let n := ws.length
    let w := w32 (ssig1 (ws.getD (n - 2) 0) + ws.getD (n - 7) 0 +
                  ssig0 (ws.getD (n - 15) 0) + ws.getD (n - 16) 0)
    shaExtend (ws ++ [w]) fuel

/-- One SHA-256 round on the eight-word working state. -/
def shaRound (st : List Nat) (kw : Nat × Nat) : List Nat :=
  match st with
  | [a, b, c, d, e, f, g, h] =>
    let t1 := w32 (h + bsig1 e + shaCh e f g + kw.1 + kw.2)
    let t2 := w32 (bsig0 a + shaMaj a b c)
    [w32 (t1 + t2), a, b, c, w32 (d + t1), e, f, g]
  | st => st

/-- Compression of one 16-word block into the running hash state. -/
def shaCompress (H : List Nat) (block : List Nat) : List Nat :=
  let ws := shaExtend block 48
  let st := (shaK.zip ws).foldl shaRound H
  (H.zip st).map (fun p => w32 (p.1 + p.2))

/-- Group a padded byte string into big-endian 32-bit words. -/
def shaWords : List Nat → List Nat
  | a :: b :: c :: d :: rest => (((a * 256 + b) * 256 + c) * 256 + d) :: shaWords rest
  | _ => []

/-- Group a word string into 16-word blocks; the fuel argument (structural,
so the kernel can evaluate it) is an upper bound on the number of blocks. -/
def shaBlocksF : Nat → List Nat → List (List Nat)
  | 0, _ => []
  | _, [] => []
  | fuel + 1, w :: ws => ((w :: ws).take 16) :: shaBlocksF fuel ((w :: ws).drop 16)

/-- Group a word string into 16-word blocks. -/
def shaBlocks (l : List Nat) : List (List Nat) :=
  shaBlocksF l.length l

/-- SHA-256 of a byte string. -/
def sha256 (msg : List Nat) : List Nat :=
  let l := msg.length
  let k := (119 - l % 64) % 64
  let padded := msg ++ 128 :: List.replicate k 0 ++ beBytes 8 (8 * l)
  let H := (shaBlocks (shaWords padded)).foldl shaCompress shaH0
  (H.map (beBytes 4)).flatten

/-- Double SHA-256 (`sha256(sha256(bytes))`), the header-hash primitive. -/
def dsha256 (msg : List Nat) : List Nat := sha256 (sha256 msg)

/-! ## Consensus parameters and external-crate oracles

Modelled from the spec: the module `consensus/params.rs` (referenced by
`src/src/core/chain.rs` and `bitcoin-core-rs/src/consensus/difficulty.rs`)
and `reward.rs` (`block_reward`) are not in `src`; §6 of the spec lists the
constants and the reward schedule without fixing values, so they are carried
as parameters.  `secp256k1` signature parsing/verification is external
(`src/src/crypto/signature.rs` wraps the crate), so it enters as two oracle
functions: `secpParse` is `PublicKey::from_slice` composed with
`PublicKey::serialize` (returning the canonical serialization of a
successfully parsed key), and `ecdsaVerify` is compact-signature parsing plus
`verify_ecdsa` against a 32-byte digest. -/
structure Params where
  MTP_WINDOW : Nat
  MAX_FUTURE_DRIFT : Int
  MAX_BLOCK_SIZE : Nat
  MAX_TARGET : List Nat
  MIN_TARGET : List Nat
  TARGET_BLOCK_TIME : Int
  DIFFICULTY_ADJUSTMENT_INTERVAL : Nat
  block_reward : Nat → Nat
  secpParse : List Nat → Option (List Nat)
  ecdsaVerify : List Nat → List Nat → List Nat → Bool

/-- Coinbase outputs may only be spent after this many blocks
(`src/src/core/chain.rs`, `src/src/core/validation.rs`). -/
def COINBASE_MATURITY : Nat := 100

/-- Height at which consensus v2 activates (`src/src/core/chain.rs`). -/
def CONSENSUS_V2_HEIGHT : Nat := 1000

/-- `u64::saturating_add`. -/
def satAdd64 (a b : Nat) : Nat := min (a + b) (2 ^ 64 - 1)

/-! ## Transactions (`src/src/core/transaction.rs`) -/

/-- `TxInput`: prior txid, output index (`u32`), compressed pubkey bytes,
compact signature, and wallet address index. -/
structure TxInput where
  txid : List Nat
  index : Nat
  pubkey : List Nat
  signature : List Nat
  address_index : Nat
deriving DecidableEq

/-- `TxOutput`: value (`u64`) and pubkey-hash lock. -/
structure TxOutput where
  value : Nat
  pubkey_hash : List Nat
deriving DecidableEq

/-- `Transaction`: ordered inputs and outputs. -/
structure Transaction where
  inputs : List TxInput
  outputs : List TxOutput
deriving DecidableEq

/-- bincode of a `Vec<u8>`: little-endian `u64` length, then the bytes. -/
def serBytes (b : List Nat) : List Nat := leBytes 8 b.length ++ b

/-- bincode of a `u32`. -/
def serU32 (n : Nat) : List Nat := leBytes 4 n

/-- bincode of a `u64` (also `usize`). -/
def serU64 (n : Nat) : List Nat := leBytes 8 n

/-- bincode of an `i64`: two's-complement little-endian. -/
def serI64 (t : Int) : List Nat := leBytes 8 (t % (18446744073709551616 : Int)).toNat

/-- bincode of a `Vec<T>` given the element serializer. -/
def serVec {α : Type} (f : α → List Nat) (l : List α) : List Nat :=
  serU64 l.length ++ (l.map f).flatten

/-- bincode of a `TxInput`, fields in declaration order. -/
def serTxInput (i : TxInput) : List Nat :=
  serBytes i.txid ++ serU32 i.index ++ serBytes i.pubkey ++
    serBytes i.signature ++ serU32 i.address_index

/-- bincode of a `TxOutput`, fields in declaration order. -/
def serTxOutput (o : TxOutput) : List Nat :=
  serU64 o.value ++ serBytes o.pubkey_hash

/-- bincode of a `Transaction` (`bincode::serialize(self)`). -/
def serTransaction (tx : Transaction) : List Nat :=
  serVec serTxInput tx.inputs ++ serVec serTxOutput tx.outputs

/-- `Transaction::txid`: a single SHA-256 of the bincode serialization. -/
def Transaction.txid (tx : Transaction) : List Nat := sha256 (serTransaction tx)

/-- `Transaction::sighash`: the message signed by each input, a single
SHA-256 of the bincode serialization. -/
def Transaction.sighash (tx : Transaction) : List Nat := sha256 (serTransaction tx)

/-- `Transaction::serialized_size`: the policy-only size estimate. -/
def Transaction.serialized_size (tx : Transaction) : Nat :=
  tx.inputs.length * 148 + tx.outputs.length * 34 + 10

/-! ## Blocks (`src/bitcoin-core-rs/src/block.rs`)

`src/src/lib.rs` re-exports `core::block`, which is not in `src`; the
`chain` modules read `header.target` as 32 bytes and call
`Block::verify_pow`, matching `bitcoin-core-rs/src/block.rs`, which is in
`src` and is embedded here. -/

/-- `BlockHeader`: height, timestamp, previous hash, nonce, 32-byte
big-endian target, merkle root. -/
structure BlockHeader where
  height : Nat
  timestamp : Int
  prev_hash : List Nat
  nonce : Nat
  target : List Nat
  merkle_root : List Nat
deriving DecidableEq

/-- `Block`: header, transactions, cached hash. -/
structure Block where
  header : BlockHeader
  transactions : List Transaction
  hash : List Nat
deriving DecidableEq

/-- bincode of a `BlockHeader`; the `[u8; 32]` target is written raw,
without a length prefix. -/
def serHeader (h : BlockHeader) : List Nat :=
  serU64 h.height ++ serI64 h.timestamp ++ serBytes h.prev_hash ++
    serU64 h.nonce ++ h.target ++ serBytes h.merkle_root

/-- bincode of a `Block`, fields in declaration order. -/
def serBlock (b : Block) : List Nat :=
  serHeader b.header ++ serVec serTransaction b.transactions ++ serBytes b.hash

/-- `Block::hash_header`: double-SHA256 of the serialized header. -/
def hash_header (b : Block) : List Nat := dsha256 (serHeader b.header)

/-- Modelled from the spec: `bitcoin-core-rs/src/pow.rs` is not in `src`
(only its caller `Block::verify_pow` is); §4.5 states `valid_pow(hash,
target)` is true iff the 32-byte hash, as a big-endian 256-bit integer, is
`≤ target`.  Implemented as Rust byte-array comparison `hash <= target`, the
comparison style `clamp_target` uses on targets. -/
def valid_pow (hash target : List Nat) : Bool := bytesLe hash target

/-- `Block::verify_pow`: the cached hash matches the recomputed header hash
and satisfies the target. -/
def verify_pow (b : Block) : Bool :=
  decide (b.hash = hash_header b) && valid_pow b.hash b.header.target

/-! ## UTXO set (`src/src/utxo.rs`)

The Rust key is the string `hex::encode(txid) + ":" + index`; hex encoding
is injective and the colon occurs in neither part, so the string key is in
bijection with the pair `(txid, index)` used here. -/

/-- An outpoint key: creating txid bytes and output index. -/
abbrev OutPoint := List Nat × Nat

/-- A `UTXO` entry: value, lock, creating height, coinbase flag. -/
structure UTXO where
  value : Nat
  pubkey_hash : List Nat
  height : Nat
  is_coinbase : Bool
deriving DecidableEq

/-- The UTXO map (`HashMap<String, UTXO>`), as an association list. -/
abbrev UTXOSet := List (OutPoint × UTXO)

/-- `HashMap::get`. -/
def utxoGet (m : UTXOSet) (k : OutPoint) : Option UTXO :=
  (m.find? (fun p => decide (p.1 = k))).map (fun p => p.2)

/-- `HashMap::remove`. -/
def utxoRemove (k : OutPoint) (m : UTXOSet) : UTXOSet :=
  m.filter (fun p => !decide (p.1 = k))

/-- `HashMap::insert` (replacing any previous binding). -/
def utxoInsert (k : OutPoint) (v : UTXO) (m : UTXOSet) : UTXOSet :=
  (k, v) :: utxoRemove k m

/-! ## Merkle tree (`src/src/merkle.rs`, `core::merkle` is absent from
`src` and the file is byte-identical logic for both stacks) -/

/-- One chunk-and-hash pass over an even-length level:
`chunks(2).map(|pair| sha256(pair[0] ++ pair[1]))`. -/
def hashPairs : List (List Nat) → List (List Nat)
  | a :: b :: rest => sha256 (a ++ b) :: hashPairs rest
  | _ => []

/-- One iteration of the `while` loop: duplicate the last hash when the
level has odd length, then pair up. -/
def merkleLevel (hs : List (List Nat)) : List (List Nat) :=
  hashPairs (if hs.length % 2 = 1 then hs ++ [(hs.getLast?).getD []] else hs)

/-- The `while hashes.len() > 1` loop; the fuel (structural, so the kernel
can evaluate it) bounds the number of iterations and `hs.length` always
suffices. -/
def merkleLoopF : Nat → List (List Nat) → List (List Nat)
  | 0, hs => hs
  | fuel + 1, hs => if hs.length ≤ 1 then hs else merkleLoopF fuel (merkleLevel hs)

/-- `merkle_root` on the txid level. -/
def merkleRootIds (ids : List (List Nat)) : List Nat :=
  (merkleLoopF ids.length ids).headD []

/-- `merkle_root`: 32 zero bytes for no transactions, otherwise the loop
over the txid list. -/
def merkle_root (txs : List Transaction) : List Nat :=
  if txs.isEmpty then List.replicate 32 0
  else merkleRootIds (txs.map Transaction.txid)

/-! ## Difficulty (`src/bitcoin-core-rs/src/consensus/difficulty.rs`) -/

/-- `clamp_target`: clamp a candidate target into
`[MIN_TARGET, MAX_TARGET]` (byte-array comparison). -/
def clamp_target (P : Params) (target : List Nat) : List Nat :=
  if bytesLt P.MAX_TARGET target then P.MAX_TARGET
  else if bytesLt target P.MIN_TARGET then P.MIN_TARGET
  else target

/-- `calculate_next_target`: expected PoW target for the next block. -/
def calculate_next_target (P : Params) (chain : List Block) : List Nat :=
  match chain.getLast? with
  | none => P.MAX_TARGET
  | some last =>
    let height := chain.length
    if height < P.DIFFICULTY_ADJUSTMENT_INTERVAL + 1 then last.header.target
    else if height % P.DIFFICULTY_ADJUSTMENT_INTERVAL ≠ 0 then last.header.target
    else
      let first := chain.getD (height - P.DIFFICULTY_ADJUSTMENT_INTERVAL - 1) last
      let actual_time : Int := last.header.timestamp - first.header.timestamp
      let expected_time : Int :=
        P.TARGET_BLOCK_TIME * (P.DIFFICULTY_ADJUSTMENT_INTERVAL : Int)
      let new_target := last.header.target.map (fun (b : Nat) =>
        (max 0 (min 255 (Int.tdiv ((b : Int) * actual_time) expected_time))).toNat)
      clamp_target P new_target

/-! ## Fork choice (`src/bitcoin-core-rs/src/consensus/fork_choice.rs`) -/

/-- `cumulative_work`: `Σ 2^256 / (target + 1)` over the chain, a zero
target contributing nothing. -/
def cumulative_work (chain : List Block) : Nat :=
  chain.foldl
    (fun total b =>
      let target := beNat b.header.target
      if target = 0 then total else total + 2 ^ 256 / (target + 1))
    0

/-! ## Consensus transaction validation (`src/src/core/validation.rs`) -/

/-- `crypto::verify_signature` (`src/src/crypto/signature.rs`): the message
is hashed with SHA-256, the 32-byte digest always forms a valid `Message`,
and compact-signature parsing, pubkey parsing and `verify_ecdsa` are the
`secp256k1` oracle. -/
def verify_signature (P : Params) (msg sig_bytes pubkey_bytes : List Nat) : Bool :=
  P.ecdsaVerify (sha256 msg) sig_bytes pubkey_bytes

/-- `crypto::pubkey_hash`: SHA-256 of the (canonically serialized) public
key. -/
def pubkey_hash (pubkey_bytes : List Nat) : List Nat := sha256 pubkey_bytes

/-- The input loop of `validate_transaction`: walks the inputs carrying the
`seen_outpoints` set and the saturating input sum; `none` is an early
`return false`, `some s` the accumulated input value. -/
def vtLoop (P : Params) (sighash : List Nat) (utxos : UTXOSet) (current_height : Nat) :
    List TxInput → List OutPoint → Nat → Option Nat
  | [], _, input_sum => some input_sum
  | inp :: rest, seen, input_sum =>
    let key : OutPoint := (inp.txid, inp.index)
    if key ∈ seen then none
    else
      match utxoGet utxos key with
      | none => none
      | some utxo =>
        if utxo.is_coinbase && decide (current_height < utxo.height + COINBASE_MATURITY) then
          none
        else
          match P.secpParse inp.pubkey with
          | none => none
          | some pkSer =>
            if ¬ pubkey_hash pkSer = utxo.pubkey_hash then none
            else if ¬ verify_signature P sighash inp.signature pkSer then none
            else vtLoop P sighash utxos current_height rest (key :: seen)
              (satAdd64 input_sum utxo.value)

/-- `validate_transaction` (consensus): coinbase accepted outright, inputs
checked for intra-transaction double spends, existence, maturity, ownership
and signatures, then no inflation. -/
def validate_transaction (P : Params) (tx : Transaction) (utxos : UTXOSet)
    (current_height : Nat) : Bool :=
  if tx.inputs.isEmpty then true
  else
    match vtLoop P tx.sighash utxos current_height tx.inputs [] 0 with
    | none => false
    | some input_sum =>
      let output_sum := tx.outputs.foldl (fun s o => satAdd64 s o.value) 0
      decide (output_sum ≤ input_sum)

/-! ## The blockchain (`src/src/core/chain.rs`) -/

/-- `Blockchain`: accepted blocks, live UTXO set, and the non-consensus
mempool list. -/
structure Blockchain where
  blocks : List Block
  utxos : UTXOSet
  mempool : List Transaction
deriving DecidableEq

/-- `Blockchain::new`. -/
def Blockchain.new : Blockchain := ⟨[], [], []⟩

/-- `median_time_past`: the middle element of the ascending sort of the last
`MTP_WINDOW` timestamps (`times[times.len() / 2]`). -/
def median_time_past (P : Params) (chain : List Block) : Int :=
  let times := ((chain.reverse.take P.MTP_WINDOW).map
    (fun b => b.header.timestamp)).insertionSort (· ≤ ·)
  times.getD (times.length / 2) 0

/-- One transaction of `rebuild_utxos`: drop every spent outpoint, then
insert each output keyed by `(txid, i)` with the block height and the
coinbase flag (first transaction with no inputs). -/
def applyTx (height : Nat) (tx_index : Nat) (m : UTXOSet) (tx : Transaction) : UTXOSet :=
  let m1 := tx.inputs.foldl (fun m inp => utxoRemove (inp.txid, inp.index) m) m
  let is_coinbase := tx_index == 0 && tx.inputs.isEmpty
  (tx.outputs.enum).foldl
    (fun m io =>
      utxoInsert (tx.txid, io.1)
        ⟨io.2.value, io.2.pubkey_hash, height, is_coinbase⟩ m)
    m1

/-- `rebuild_utxos`: clear and replay every accepted block. -/
def rebuild_utxos (blocks : List Block) : UTXOSet :=
  blocks.foldl
    (fun m b => (b.transactions.enum).foldl
      (fun m ti => applyTx b.header.height ti.1 m ti.2) m)
    []

/-- The input loop of `enforce_coinbase_maturity`. -/
def ecmLoop (utxos : UTXOSet) (current_height : Nat) : List TxInput → Bool
  | [] => true
  | inp :: rest =>
    match utxoGet utxos (inp.txid, inp.index) with
    | none => false
    | some utxo =>
      if utxo.is_coinbase && decide (current_height < utxo.height + COINBASE_MATURITY) then
        false
      else ecmLoop utxos current_height rest

/-- `Blockchain::enforce_coinbase_maturity` (consensus v2): every spent
coinbase UTXO must have matured. -/
def enforce_coinbase_maturity (st : Blockchain) (tx : Transaction)
    (current_height : Nat) : Bool :=
  if tx.inputs.isEmpty then true
  else ecmLoop st.utxos current_height tx.inputs

/-- The height-and-linkage check of `validate_and_add_block`: at expected
height 0 only `header.height == 0`, otherwise height continuity and
`prev_hash` linkage against the tip. -/
def heightOk (st : Blockchain) (block : Block) : Bool :=
  match st.blocks.getLast? with
  | none => decide (block.header.height = 0)
  | some prev =>
    decide (block.header.height = st.blocks.length) &&
    decide (block.header.prev_hash = prev.hash)

/-- The median-time-past and future-drift check of
`validate_and_add_block`, skipped on the empty chain. -/
def timeOk (P : Params) (now : Int) (st : Blockchain) (block : Block) : Bool :=
  if st.blocks.isEmpty then true
  else
    decide (median_time_past P st.blocks < block.header.timestamp) &&
    decide (block.header.timestamp ≤ now + P.MAX_FUTURE_DRIFT)

/-- The block-size check of `validate_and_add_block`
(`bincode::serialize(&block).len() <= MAX_BLOCK_SIZE`). -/
def sizeOk (P : Params) (block : Block) : Bool :=
  decide ((serBlock block).length ≤ P.MAX_BLOCK_SIZE)

/-- The coinbase rules of `validate_and_add_block`: if the block has a
first transaction, it must have no inputs and its output sum must not
exceed `block_reward(height)`.  Fees are not added to the cap. -/
def coinbaseOk (P : Params) (block : Block) : Bool :=
  match block.transactions.head? with
  | none => true
  | some cb =>
    cb.inputs.isEmpty &&
    decide (cb.outputs.foldl (fun s o => s + o.value) 0 ≤
      P.block_reward block.header.height)

/-- The per-transaction loop of `validate_and_add_block`: consensus
validation for every transaction, plus the v2-gated maturity check. -/
def txsOk (P : Params) (st : Blockchain) (block : Block) : Bool :=
  block.transactions.all (fun tx =>
    validate_transaction P tx st.utxos block.header.height &&
    (if CONSENSUS_V2_HEIGHT ≤ block.header.height then
      enforce_coinbase_maturity st tx block.header.height
    else true))

/-- `Blockchain::validate_and_add_block`.  The Rust sequence of early
`return false`s is rendered as the conjunction of its checks, in source
order; `now` is the `OffsetDateTime::now_utc().unix_timestamp()` read.  On
acceptance the block is pushed and the UTXO set rebuilt. -/
def validate_and_add_block (P : Params) (now : Int) (st : Blockchain)
    (block : Block) : Bool × Blockchain :=
  if heightOk st block && timeOk P now st block &&
      decide (block.header.target = calculate_next_target P st.blocks) &&
      verify_pow block &&
      decide (merkle_root block.transactions = block.header.merkle_root) &&
      sizeOk P block && coinbaseOk P block && txsOk P st block then
    let blocks := st.blocks ++ [block]
    (true, { blocks := blocks, utxos := rebuild_utxos blocks, mempool := st.mempool })
  else (false, st)

/-- The index loop of `validate_chain`: `pre ++ prev :: rest` is the whole
candidate, `prev` the block at index `i - 1`, and `pre ++ [prev]` is
`chain[..i]`, the prefix the expected target is computed from. -/
def validLinks (P : Params) (pre : List Block) (prev : Block) : List Block → Bool
  | [] => true
  | b :: rest =>
    decide (b.header.height = prev.header.height + 1) &&
    decide (b.header.prev_hash = prev.hash) &&
    decide (b.header.target = calculate_next_target P (pre ++ [prev])) &&
    verify_pow b &&
    decide (merkle_root b.transactions = b.header.merkle_root) &&
    validLinks P (pre ++ [prev]) b rest

/-- `Blockchain::validate_chain`: a non-empty chain whose every block of
index `i ≥ 1` passes linkage, expected-target, proof-of-work and merkle
checks against its predecessor and prefix.  The block at index 0 is not
examined. -/
def validate_chain (P : Params) (chain : List Block) : Bool :=
  match chain with
  | [] => false
  | b0 :: rest => validLinks P [] b0 rest

/-- The fork-height loop of `maybe_reorg`: walk both chains in step from
index 0, recording the last index whose hashes agreed, and stop at the
first mismatch. -/
def forkLoop : List Block → List Block → Nat → Nat → Nat
  | a :: as_, b :: bs, i, fork =>
    if ¬ a.hash = b.hash then fork else forkLoop as_ bs (i + 1) i
  | _, _, _, fork => fork

/-- The fork height of a candidate against the current chain. -/
def forkHeight (current candidate : List Block) : Nat :=
  forkLoop current candidate 0 0

/-- The `while self.height() > height` pop loop of `disconnect_to_height`;
the structural fuel bounds the iterations and `blocks.length` always
suffices. -/
def disconnectLoopF : Nat → List Block → Nat → List Block → List Block × List Block
  | 0, blocks, _, orphaned => (blocks, orphaned)
  | fuel + 1, blocks, height, orphaned =>
    if height < blocks.length then
      match blocks.getLast? with
      | some b => disconnectLoopF fuel blocks.dropLast height (orphaned ++ [b])
      | none => (blocks, orphaned)
    else (blocks, orphaned)

/-- `Blockchain::disconnect_to_height`: pop blocks above `height`, newest
first, and rebuild the UTXO set. -/
def disconnect_to_height (st : Blockchain) (height : Nat) : List Block × Blockchain :=
  let r := disconnectLoopF st.blocks.length st.blocks height []
  (r.2, { blocks := r.1, utxos := rebuild_utxos r.1, mempool := st.mempool })

/-- `Blockchain::maybe_reorg`: validate the candidate as a whole, require
strictly more cumulative work, disconnect past the fork height collecting
orphans, adopt the candidate and rebuild the UTXO set. -/
def maybe_reorg (P : Params) (st : Blockchain) (candidate : List Block) :
    Option (List Block) × Blockchain :=
  if ¬ validate_chain P candidate then (none, st)
  else if cumulative_work candidate ≤ cumulative_work st.blocks then (none, st)
  else
    let fork_height := forkHeight st.blocks candidate
    let r := disconnect_to_height st fork_height
    (some r.1,
      { blocks := candidate, utxos := rebuild_utxos candidate, mempool := st.mempool })

/-! ## The older parallel stack (top-level `src/src/*.rs`)

`src/src/transaction.rs`, `src/src/validation.rs`, `src/src/block.rs` and
`src/src/mempool.rs` form the second implementation the spec's §9 notes as
divergent; the mempool is the one the node uses.  Its `TxOutput` is
field-identical to the core one and is shared. -/
namespace V1

/-- `TxInput` (`src/src/transaction.rs`): txid, output index (`usize`),
pubkey bytes, signature bytes. -/
structure TxInput where
  txid : List Nat
  index : Nat
  pubkey : List Nat
  signature : List Nat
deriving DecidableEq

/-- `Transaction` (`src/src/transaction.rs`). -/
structure Transaction where
  inputs : List TxInput
  outputs : List TxOutput
deriving DecidableEq

/-- bincode of a v1 `TxInput` (`usize` as little-endian `u64`). -/
def serTxInput (i : TxInput) : List Nat :=
  serBytes i.txid ++ serU64 i.index ++ serBytes i.pubkey ++ serBytes i.signature

/-- bincode of a v1 `Transaction`. -/
def serTransaction (tx : Transaction) : List Nat :=
  serVec serTxInput tx.inputs ++ serVec Bitcoin.serTxOutput tx.outputs

/-- `Transaction::txid`: a single SHA-256 of the bincode serialization. -/
def Transaction.txid (tx : Transaction) : List Nat := sha256 (serTransaction tx)

/-- `Transaction::sighash`: identical to the txid. -/
def Transaction.sighash (tx : Transaction) : List Nat := sha256 (serTransaction tx)

/-- `Transaction::serialized_size`: the policy-only size estimate. -/
def Transaction.serialized_size (tx : Transaction) : Nat :=
  tx.inputs.length * 148 + tx.outputs.length * 34 + 10

/-- `BlockHeader` (`src/src/block.rs`): the difficulty-as-`u32` variant. -/
structure BlockHeader where
  height : Nat
  timestamp : Int
  prev_hash : List Nat
  nonce : Nat
  difficulty : Nat
  merkle_root : List Nat
deriving DecidableEq

/-- `Block` (`src/src/block.rs`). -/
structure Block where
  header : BlockHeader
  transactions : List Transaction
  hash : List Nat
deriving DecidableEq

/-- `merkle_root` (`src/src/merkle.rs`) over v1 transactions. -/
def merkle_root (txs : List Transaction) : List Nat :=
  if txs.isEmpty then List.replicate 32 0
  else merkleRootIds (txs.map Transaction.txid)

/-- The input loop of the v1 `validate_transaction`
(`src/src/validation.rs`): existence, ownership
(`pubkey_hash(&input.pubkey)`, byte-level SHA-256), signature, saturating
input sum.  No `seen_outpoints` set and no height argument. -/
def vtLoop (P : Params) (sighash : List Nat) (utxos : UTXOSet) :
    List TxInput → Nat → Option Nat
  | [], input_sum => some input_sum
  | inp :: rest, input_sum =>
    match utxoGet utxos (inp.txid, inp.index) with
    | none => none
    | some utxo =>
      if ¬ pubkey_hash inp.pubkey = utxo.pubkey_hash then none
      else if ¬ verify_signature P sighash inp.signature inp.pubkey then none
      else vtLoop P sighash utxos rest (satAdd64 input_sum utxo.value)

/-- The v1 `validate_transaction` (`src/src/validation.rs`). -/
def validate_transaction (P : Params) (tx : Transaction) (utxos : UTXOSet) : Bool :=
  if tx.inputs.isEmpty then true
  else
    match vtLoop P tx.sighash utxos tx.inputs 0 with
    | none => false
    | some input_sum =>
      let output_sum := tx.outputs.foldl (fun s o => satAdd64 s o.value) 0
      decide (output_sum ≤ input_sum)

/-! ### Mempool (`src/src/mempool.rs`) -/

/-- `MAX_TX_SIZE` (`src/src/policy.rs`). -/
def MAX_TX_SIZE : Nat := 100000

/-- `MempoolEntry`: transaction, absolute fee, size estimate, admission
timestamp. -/
structure MempoolEntry where
  tx : Transaction
  fee : Int
  size : Nat
  timestamp : Int
deriving DecidableEq

/-- `Mempool`: entries and the reserved-outpoint set
(`HashSet<(Vec<u8>, usize)>`). -/
structure Mempool where
  entries : List MempoolEntry
  spent_outpoints : Finset OutPoint
deriving DecidableEq

/-- `Mempool::new`. -/
def Mempool.new : Mempool := ⟨[], ∅⟩

/-- The input-sum loop of `calculate_fee`; `none` is the `?` on the UTXO
lookup. -/
def cfLoop (utxos : UTXOSet) : List TxInput → Int → Option Int
  | [], input_sum => some input_sum
  | inp :: rest, input_sum =>
    match utxoGet utxos (inp.txid, inp.index) with
    | none => none
    | some utxo => cfLoop utxos rest (input_sum + (utxo.value : Int))

/-- `calculate_fee`: input sum minus output sum, `None` if any input is
missing from the UTXO set. -/
def calculate_fee (tx : Transaction) (utxos : UTXOSet) : Option Int :=
  (cfLoop utxos tx.inputs 0).map
    (fun input_sum => input_sum - tx.outputs.foldl (fun s o => s + (o.value : Int)) 0)

/-- `Mempool::add_transaction`, the policy admission path; `now` is the
admission timestamp read. -/
def add_transaction (P : Params) (m : Mempool) (tx : Transaction)
    (utxos : UTXOSet) (now : Int) : Bool × Mempool :=
  if tx.inputs.isEmpty then (false, m)
  else
    let size := tx.serialized_size
    if MAX_TX_SIZE < size then (false, m)
    else if ¬ validate_transaction P tx utxos then (false, m)
    else if tx.inputs.any (fun inp => decide ((inp.txid, inp.index) ∈ m.spent_outpoints)) then
      (false, m)
    else
      match calculate_fee tx utxos with
      | none => (false, m)
      | some fee =>
        if fee ≤ 0 then (false, m)
        else
          (true,
            { entries := m.entries ++ [⟨tx, fee, size, now⟩],
              spent_outpoints := tx.inputs.foldl
                (fun s inp => insert (inp.txid, inp.index) s) m.spent_outpoints })

/-- `Mempool::rebuild_spent_outpoints` as a function of the entries. -/
def rebuild_spent_outpoints (entries : List MempoolEntry) : Finset OutPoint :=
  entries.foldl
    (fun s e => e.tx.inputs.foldl (fun s inp => insert (inp.txid, inp.index) s) s)
    ∅

/-- `Mempool::remove_confirmed`: drop entries whose txid matches a confirmed
transaction, then rebuild the reserved set. -/
def remove_confirmed (m : Mempool) (confirmed : List Transaction) : Mempool :=
  let entries := m.entries.filter
    (fun e => ¬ confirmed.any (fun tx => decide (tx.txid = e.tx.txid)))
  { entries := entries, spent_outpoints := rebuild_spent_outpoints entries }

/-- `Mempool::resurrect_from_orphans`: re-admit each orphaned block's
non-coinbase transactions through the normal admission path, ignoring
failures. -/
def resurrect_from_orphans (P : Params) (m : Mempool) (orphaned : List Block)
    (utxos : UTXOSet) (now : Int) : Mempool :=
  orphaned.foldl
    (fun m b => (b.transactions.drop 1).foldl
      (fun m tx => (add_transaction P m tx utxos now).2) m)
    m

end V1

/-! ## Concrete instances used by witnesses and counterexamples -/

/-- The outpoint key of an input, as the string key `hex(txid) + ":" + index`
identifies it. -/
def inputKey (i : TxInput) : OutPoint := (i.txid, i.index)

/-- A throwaway block with a given timestamp and an all-128 target, for the
C8 witness chain. -/
def c8blk (ts : Int) : Block :=
  ⟨⟨0, ts, [], 0, List.replicate 32 128, []⟩, [], []⟩

/-- The C8 witness chain: four blocks, interval 2, so the retarget branch
fires with `first = chain[1]`. -/
def c8chain : List Block := [c8blk 0, c8blk 100, c8blk 200, c8blk 2500]

/-- The C8 witness parameters (adjustment interval 2, block time 600). -/
def c8params : Params :=
  ⟨11, 7200, 1000000, List.replicate 32 255, List.replicate 32 0, 600, 2,
    fun _ => 50, some, fun _ _ _ => true⟩

/-- The outpoints an entry's transaction spends. -/
def entryOutpoints (e : V1.MempoolEntry) : List OutPoint :=
  e.tx.inputs.map (fun i => (i.txid, i.index))

/-- The mempool invariant of §8.8: the reserved set is exactly the union of
the entries' input outpoints, and no two entries share an outpoint. -/
def MempoolInv (m : V1.Mempool) : Prop :=
  (∀ k : OutPoint, k ∈ m.spent_outpoints ↔ ∃ e ∈ m.entries, k ∈ entryOutpoints e) ∧
  m.entries.Pairwise (fun a b => ∀ k ∈ entryOutpoints a, k ∉ entryOutpoints b)

/-- The state invariant maintained by block acceptance: the live UTXO set is
the replay of the accepted blocks. -/
def ChainInv (st : Blockchain) : Prop := st.utxos = rebuild_utxos st.blocks

/-- The C6 witness block: an empty block accepted at height 0. -/
def c6header : BlockHeader :=
  ⟨0, 1730000000, List.replicate 32 0, 0, List.replicate 32 255, List.replicate 32 0⟩

/-- The C6 witness block with its real double-SHA256 header hash. -/
def c6block : Block := ⟨c6header, [], dsha256 (serHeader c6header)⟩

/-- The C1 counterexample block: 32-byte-max target (so it carries work) but
a junk 3-byte hash failing `verify_pow`, and a first transaction with an
input (violating the coinbase rule); its transactions also fail §4.2 and the
merkle commitment. -/
def c1bad : Block :=
  ⟨⟨0, 0, [], 0, List.replicate 32 255, [9, 9, 9]⟩,
    [⟨[⟨[], 0, [], [], 0⟩], []⟩], [1, 2, 3]⟩

/-- The C7 shared genesis: junk 32-byte hash, all-255 target. -/
def c7a0 : Block :=
  ⟨⟨0, 1000, List.replicate 32 0, 0, List.replicate 32 255, List.replicate 32 0⟩,
    [], List.replicate 32 7⟩

/-- The C7 current tip: zero target, so it contributes no work. -/
def c7a1 : Block :=
  ⟨⟨1, 1001, List.replicate 32 7, 0, List.replicate 32 0, List.replicate 32 0⟩,
    [], List.replicate 32 8⟩

/-- The C7 candidate tip header: links to the shared genesis at the expected
all-255 target. -/
def c7b1h : BlockHeader :=
  ⟨1, 1002, List.replicate 32 7, 0, List.replicate 32 255, List.replicate 32 0⟩

/-- The C7 candidate tip with its real double-SHA256 header hash. -/
def c7b1 : Block := ⟨c7b1h, [], dsha256 (serHeader c7b1h)⟩

/-- The C7 current state: blocks `[c7a0, c7a1]`. -/
def c7st : Blockchain := ⟨[c7a0, c7a1], [], []⟩

/-- The public key owning the C4 spendable output. -/
def c4pk : List Nat := [1, 2, 3]

/-- The transaction creating the C4 spendable output: it has an input, so
its output is recorded with `is_coinbase = false` and matures immediately. -/
def c4prevtx : Transaction := ⟨[⟨[9], 0, [], [], 0⟩], [⟨5, sha256 c4pk⟩]⟩

/-- The C4 state's only block, holding `c4prevtx` (the block itself is
prior state and is not re-validated). -/
def c4b0 : Block :=
  ⟨⟨0, 1000, List.replicate 32 0, 0, List.replicate 32 255, List.replicate 32 0⟩,
    [c4prevtx], List.replicate 32 3⟩

/-- The C4 state: one block, UTXO set replayed from it. -/
def c4st : Blockchain := ⟨[c4b0], rebuild_utxos [c4b0], []⟩

/-- The C4 coinbase: output sum `51 = block_reward(1) + 1`. -/
def c4cb : Transaction := ⟨[], [⟨51, []⟩]⟩

/-- The C4 spending transaction: spends the 5-unit output, re-creates 4
units, paying fee 1. -/
def c4spend : Transaction := ⟨[⟨Transaction.txid c4prevtx, 0, c4pk, [], 0⟩], [⟨4, []⟩]⟩

/-- The C4 candidate header, carrying the true merkle root. -/
def c4header : BlockHeader :=
  ⟨1, 2000, List.replicate 32 3, 0, List.replicate 32 255,
    merkle_root [c4cb, c4spend]⟩

/-- The C4 candidate block with its real double-SHA256 header hash. -/
def c4block : Block := ⟨c4header, [c4cb, c4spend], dsha256 (serHeader c4header)⟩

/-! ## Byte-order arithmetic -/

lemma foldl_beNat (l : List Nat) (acc : Nat) :
    l.foldl (fun a b => a * 256 + b) acc =
      acc * 256 ^ l.length + l.foldl (fun a b => a * 256 + b) 0 := by
  induction l generalizing acc with
  | nil => simp
  | cons b bs ih =>
    simp only [List.foldl_cons, List.length_cons, Nat.zero_mul, Nat.zero_add]
    rw [ih (acc * 256 + b), ih b]
    ring

lemma beNat_cons (b : Nat) (bs : List Nat) :
    beNat (b :: bs) = b * 256 ^ bs.length + beNat bs := by
  unfold beNat
  simp only [List.foldl_cons, Nat.zero_mul, Nat.zero_add]
  exact foldl_beNat bs b

lemma beNat_lt_pow (l : List Nat) (h : ∀ b ∈ l, b < 256) :
    beNat l < 256 ^ l.length := by
  induction l with
  | nil => simp [beNat]
  | cons b bs ih =>
    rw [beNat_cons]
    have hb : b < 256 := h b (by simp)
    have hbs : beNat bs < 256 ^ bs.length := ih (fun x hx => h x (by simp [hx]))
    have : (b + 1) * 256 ^ bs.length ≤ 256 * 256 ^ bs.length :=
      Nat.mul_le_mul_right _ hb
    simp only [List.length_cons, pow_succ]
    nlinarith

lemma bytesLe_iff_beNat_le (xs ys : List Nat) (hlen : xs.length = ys.length)
    (hx : ∀ b ∈ xs, b < 256) (hy : ∀ b ∈ ys, b < 256) :
    bytesLe xs ys = true ↔ beNat xs ≤ beNat ys := by
  induction xs generalizing ys with
  | nil =>
    cases ys with
    | nil => simp [bytesLe, bytesCmp]
    | cons b bs => simp at hlen
  | cons a as_ ih =>
    cases ys with
    | nil => simp at hlen
    | cons b bs =>
      have hlen' : as_.length = bs.length := by simpa using hlen
      have ha : a < 256 := hx a (by simp)
      have hb : b < 256 := hy b (by simp)
      have has : beNat as_ < 256 ^ as_.length :=
        beNat_lt_pow as_ (fun x hxm => hx x (by simp [hxm]))
      have hbs : beNat bs < 256 ^ bs.length :=
        beNat_lt_pow bs (fun x hxm => hy x (by simp [hxm]))
      rw [beNat_cons, beNat_cons, ← hlen']
      rcases Nat.lt_trichotomy a b with hab | hab | hab
      · have h1 : bytesLe (a :: as_) (b :: bs) = true := by
          simp [bytesLe, bytesCmp, hab]
        have h2 : a * 256 ^ as_.length + beNat as_ ≤ b * 256 ^ as_.length + beNat bs := by
          have : (a + 1) * 256 ^ as_.length ≤ b * 256 ^ as_.length :=
            Nat.mul_le_mul_right _ hab
          nlinarith
        simp [h1, h2]
      · subst hab
        have h1 : bytesLe (a :: as_) (a :: bs) = bytesLe as_ bs := by
          simp [bytesLe, bytesCmp]
        rw [h1, ih bs hlen' (fun x hxm => hx x (by simp [hxm]))
          (fun x hxm => hy x (by simp [hxm]))]
        constructor
        · intro h; omega
        · intro h; omega
      · have h1 : bytesLe (a :: as_) (b :: bs) = false := by
          simp only [bytesLe, bytesCmp]
          rw [if_neg (by omega), if_pos hab]
        have h2 : ¬ a * 256 ^ as_.length + beNat as_ ≤ b * 256 ^ as_.length + beNat bs := by
          have : (b + 1) * 256 ^ as_.length ≤ a * 256 ^ as_.length :=
            Nat.mul_le_mul_right _ hab
          rw [← hlen'] at hbs
          nlinarith
        simp [h1, h2]

/-! ## C2: `valid_pow` against the big-endian integer reading -/

/-- C2: for every 32-byte hash and every 32-byte target, `valid_pow(hash,
target)` returns true if and only if the hash, interpreted as a big-endian
256-bit integer, is less than or equal to the target (so interpreted). -/
theorem C2_valid_pow_iff_beNat_le (hash target : List Nat)
    (hlen : hash.length = 32) (tlen : target.length = 32)
    (hb : ∀ b ∈ hash, b < 256) (tb : ∀ b ∈ target, b < 256) :
    valid_pow hash target = true ↔ beNat hash ≤ beNat target := by
  unfold valid_pow
  exact bytesLe_iff_beNat_le hash target (by omega) hb tb

/-- Witness for C2 at a concrete hash and target. -/
theorem C2_valid_pow_witness :
    (List.replicate 31 0 ++ [7]).length = 32 ∧
    (List.replicate 31 0 ++ [9]).length = 32 ∧
    (∀ b ∈ List.replicate 31 0 ++ [7], b < 256) ∧
    (∀ b ∈ List.replicate 31 0 ++ [9], b < 256) ∧
    (valid_pow (List.replicate 31 0 ++ [7]) (List.replicate 31 0 ++ [9]) = true ↔
      beNat (List.replicate 31 0 ++ [7]) ≤ beNat (List.replicate 31 0 ++ [9])) :=
  ⟨by decide, by decide, by decide, by decide,
    C2_valid_pow_iff_beNat_le _ _ (by decide) (by decide) (by decide) (by decide)⟩

/-! ## C3: txid and sighash use a single SHA-256, not a double one -/

/-- C3 (amended): for every transaction — in either stack — the txid and the
sighash both equal the single SHA-256 of the canonical bincode
serialization, and they are equal to each other.  The double-SHA256 claim is
refuted by `C3_counterexample`. -/
theorem C3_txid_sighash_single_sha256 :
    (∀ tx : Transaction,
      tx.txid = sha256 (serTransaction tx) ∧ tx.sighash = tx.txid) ∧
    (∀ tx : V1.Transaction,
      tx.txid = sha256 (V1.serTransaction tx) ∧ tx.sighash = tx.txid) :=
  ⟨fun _ => ⟨rfl, rfl⟩, fun _ => ⟨rfl, rfl⟩⟩

/-- C3 counterexample: for the concrete empty transaction, the txid is not
the double-SHA256 of the serialization (the code hashes once). -/
theorem C3_counterexample :
    Transaction.txid ⟨[], []⟩ ≠ dsha256 (serTransaction ⟨[], []⟩) := by
  decide

/-! ## C5: intra-transaction duplicate outpoints are rejected -/

lemma vtLoop_some_nodup (P : Params) (sighash : List Nat) (utxos : UTXOSet)
    (h : Nat) :
    ∀ (inputs : List TxInput) (seen : List OutPoint) (acc s : Nat),
      vtLoop P sighash utxos h inputs seen acc = some s →
      (inputs.map inputKey).Nodup ∧ ∀ k ∈ inputs.map inputKey, k ∉ seen := by
  intro inputs
  induction inputs with
  | nil => intro seen acc s _; simp
  | cons inp rest ih =>
    intro seen acc s hsome
    simp only [vtLoop] at hsome
    by_cases hmem : (inp.txid, inp.index) ∈ seen
    · simp [hmem] at hsome
    · rw [if_neg hmem] at hsome
      rcases hget : utxoGet utxos (inp.txid, inp.index) with _ | u
      · rw [hget] at hsome; simp at hsome
      · rw [hget] at hsome
        simp only at hsome
        by_cases hcb : (u.is_coinbase && decide (h < u.height + COINBASE_MATURITY)) = true
        · simp [hcb] at hsome
        · rw [if_neg hcb] at hsome
          rcases hpk : P.secpParse inp.pubkey with _ | pkSer
          · rw [hpk] at hsome; simp at hsome
          · rw [hpk] at hsome
            simp only at hsome
            by_cases hhash : pubkey_hash pkSer = u.pubkey_hash
            · rw [if_neg (by simp [hhash])] at hsome
              by_cases hsig : verify_signature P sighash inp.signature pkSer = true
              · rw [if_neg (by simp [hsig])] at hsome
                obtain ⟨hnd, hns⟩ := ih _ _ _ hsome
                refine ⟨?_, ?_⟩
                · simp only [List.map_cons, List.nodup_cons]
                  exact ⟨fun hk => hns _ hk (by simp [inputKey]), hnd⟩
                · intro k hk
                  simp only [List.map_cons, List.mem_cons] at hk
                  rcases hk with hk | hk
                  · subst hk; simpa [inputKey] using hmem
                  · intro hks; exact hns k hk (by simp [hks])
              · rw [if_pos (by simp [hsig])] at hsome; simp at hsome
            · rw [if_pos (by simp [hhash])] at hsome; simp at hsome

/-- C5: consensus transaction validation
(`core::validation::validate_transaction`, the stack `lib.rs` exports)
rejects every non-coinbase transaction in which the same outpoint appears
twice among the inputs, regardless of signatures, values, or the UTXO
set. -/
theorem C5_duplicate_outpoint_rejected (P : Params) (tx : Transaction)
    (utxos : UTXOSet) (height : Nat) (hne : tx.inputs ≠ [])
    (hdup : ¬ (tx.inputs.map inputKey).Nodup) :
    validate_transaction P tx utxos height = false := by
  unfold validate_transaction
  rw [if_neg (by simpa using hne)]
  rcases hloop : vtLoop P tx.sighash utxos height tx.inputs [] 0 with _ | s
  · rfl
  · exact absurd (vtLoop_some_nodup P tx.sighash utxos height tx.inputs [] 0 s hloop).1 hdup

/-- Witness for C5: a concrete two-input transaction spending the same
outpoint twice is rejected. -/
theorem C5_duplicate_outpoint_witness :
    (Transaction.mk [⟨[1], 0, [], [], 0⟩, ⟨[1], 0, [], [], 0⟩] []).inputs ≠ [] ∧
    ¬ ((Transaction.mk [⟨[1], 0, [], [], 0⟩, ⟨[1], 0, [], [], 0⟩] []).inputs.map
      inputKey).Nodup ∧
    validate_transaction ⟨11, 7200, 1000000, List.replicate 32 255,
      List.replicate 32 0, 600, 10, fun _ => 50, some, fun _ _ _ => true⟩
      (Transaction.mk [⟨[1], 0, [], [], 0⟩, ⟨[1], 0, [], [], 0⟩] []) [] 0 = false :=
  ⟨by decide, by decide,
    C5_duplicate_outpoint_rejected _ _ _ _ (by decide) (by decide)⟩

/-! ## C10: odd-level duplication makes the merkle root collide -/

lemma hashPairs_length : ∀ l : List (List Nat), (hashPairs l).length = l.length / 2
  | [] => by simp [hashPairs]
  | [_] => by simp [hashPairs]
  | _ :: _ :: rest => by
    simp only [hashPairs, List.length_cons, hashPairs_length rest]
    omega

lemma merkleLevel_length (hs : List (List Nat)) :
    (merkleLevel hs).length = (hs.length + hs.length % 2) / 2 := by
  unfold merkleLevel
  by_cases h : hs.length % 2 = 1
  · rw [if_pos h, hashPairs_length]
    simp [h]
  · rw [if_neg h, hashPairs_length]
    omega

lemma merkleLoopF_fuel : ∀ (f1 f2 : Nat) (hs : List (List Nat)),
    hs.length ≤ f1 + 1 → hs.length ≤ f2 + 1 →
    merkleLoopF f1 hs = merkleLoopF f2 hs := by
  intro f1
  induction f1 with
  | zero =>
    intro f2 hs h1 _
    have hle : hs.length ≤ 1 := h1
    cases f2 with
    | zero => rfl
    | succ f2 => simp [merkleLoopF, hle]
  | succ f1 ih =>
    intro f2 hs h1 h2
    by_cases hle : hs.length ≤ 1
    · cases f2 with
      | zero => simp [merkleLoopF, hle]
      | succ f2 => simp [merkleLoopF, hle]
    · have hge : 2 ≤ hs.length := by omega
      have hlevel : (merkleLevel hs).length < hs.length := by
        rw [merkleLevel_length]; omega
      cases f2 with
      | zero => omega
      | succ f2 =>
        simp only [merkleLoopF, if_neg hle]
        exact ih f2 (merkleLevel hs) (by omega) (by omega)

lemma getLast?_map {α β : Type} (f : α → β) (l : List α) :
    (l.map f).getLast? = l.getLast?.map f := by
  induction l with
  | nil => simp
  | cons a l ih =>
    cases l with
    | nil => simp
    | cons b t => simpa using ih

lemma merkleRootIds_append_last (ids : List (List Nat)) (l : List Nat)
    (hlast : ids.getLast? = some l) (hodd : ids.length % 2 = 1)
    (h3 : 3 ≤ ids.length) :
    merkleRootIds (ids ++ [l]) = merkleRootIds ids := by
  have hne : ids ≠ [] := by rintro rfl; simp at hlast
  unfold merkleRootIds
  have hL : (ids ++ [l]).length = ids.length + 1 := by simp
  -- unfold one loop iteration on each side
  have hstep1 : merkleLoopF (ids ++ [l]).length (ids ++ [l]) =
      merkleLoopF ids.length (merkleLevel (ids ++ [l])) := by
    rw [hL]
    simp only [merkleLoopF]
    rw [if_neg (by simp only [List.length_append, List.length_cons, List.length_nil]; omega)]
  have hstep2 : merkleLoopF ids.length ids =
      merkleLoopF (ids.length - 1) (merkleLevel ids) := by
    obtain ⟨n, hn⟩ : ∃ n, ids.length = n + 1 := ⟨ids.length - 1, by omega⟩
    rw [hn]
    simp only [merkleLoopF]
    rw [if_neg (by omega : ¬ ids.length ≤ 1)]
    have hn1 : n + 1 - 1 = n := by omega
    rw [hn1]
  -- the two levels agree: padding the odd level appends exactly `l`
  have hlevel : merkleLevel (ids ++ [l]) = merkleLevel ids := by
    unfold merkleLevel
    rw [if_neg (by simp only [List.length_append, List.length_cons, List.length_nil]; omega),
      if_pos hodd, hlast]
    rfl
  rw [hstep1, hstep2, hlevel]
  have hlevlen : (merkleLevel ids).length = (ids.length + 1) / 2 := by
    rw [merkleLevel_length]; omega
  congr 1
  apply merkleLoopF_fuel
  · rw [hlevlen]; omega
  · rw [hlevlen]; omega

/-- C10: for every transaction list of odd length at least 3, the merkle
root (`src/src/merkle.rs`) is unchanged when the last transaction is
appended once more, because the algorithm duplicates the last hash at odd
levels — so the two distinct lists share one merkle commitment. -/
theorem C10_merkle_duplicate_last (txs : List V1.Transaction) (t : V1.Transaction)
    (hlast : txs.getLast? = some t) (hodd : txs.length % 2 = 1)
    (h3 : 3 ≤ txs.length) :
    V1.merkle_root (txs ++ [t]) = V1.merkle_root txs ∧ txs ++ [t] ≠ txs := by
  have hne : txs ≠ [] := by rintro rfl; simp at hlast
  constructor
  · unfold V1.merkle_root
    rw [if_neg (by simp), if_neg (by simpa using hne)]
    rw [List.map_append, List.map_singleton]
    exact merkleRootIds_append_last (txs.map V1.Transaction.txid) (V1.Transaction.txid t)
      (by rw [getLast?_map, hlast]; rfl)
      (by simpa using hodd) (by simpa using h3)
  · intro h
    have := congrArg List.length h
    simp at this

/-- Witness for C10 at a concrete three-transaction list. -/
theorem C10_merkle_duplicate_witness :
    ([⟨[], []⟩, ⟨[], [⟨1, []⟩]⟩, ⟨[], [⟨2, []⟩]⟩] : List V1.Transaction).getLast? =
      some ⟨[], [⟨2, []⟩]⟩ ∧
    ([⟨[], []⟩, ⟨[], [⟨1, []⟩]⟩, ⟨[], [⟨2, []⟩]⟩] : List V1.Transaction).length % 2 = 1 ∧
    (V1.merkle_root ([⟨[], []⟩, ⟨[], [⟨1, []⟩]⟩, ⟨[], [⟨2, []⟩]⟩] ++ [⟨[], [⟨2, []⟩]⟩]) =
      V1.merkle_root [⟨[], []⟩, ⟨[], [⟨1, []⟩]⟩, ⟨[], [⟨2, []⟩]⟩] ∧
      ([⟨[], []⟩, ⟨[], [⟨1, []⟩]⟩, ⟨[], [⟨2, []⟩]⟩] : List V1.Transaction) ++
        [⟨[], [⟨2, []⟩]⟩] ≠ [⟨[], []⟩, ⟨[], [⟨1, []⟩]⟩, ⟨[], [⟨2, []⟩]⟩]) :=
  ⟨by decide, by decide,
    C10_merkle_duplicate_last _ _ (by decide) (by decide) (by decide)⟩

/-! ## C8: difficulty retargeting case analysis -/

/-- C8: `calculate_next_target` returns `MAX_TARGET` on the empty chain;
returns the last block's target when `len < INTERVAL + 1` or
`len % INTERVAL ≠ 0`; and otherwise scales the last target byte-wise by
`(last.timestamp - first.timestamp) / (TARGET_BLOCK_TIME * INTERVAL)`
(multiply then truncating-divide), with
`first = chain[len - INTERVAL - 1]`, each byte clamped to `[0, 255]` and
the result clamped into `[MIN_TARGET, MAX_TARGET]`. -/
theorem C8_calculate_next_target_cases (P : Params) (chain : List Block) :
    (chain = [] → calculate_next_target P chain = P.MAX_TARGET) ∧
    (∀ last, chain.getLast? = some last →
      ((chain.length < P.DIFFICULTY_ADJUSTMENT_INTERVAL + 1 ∨
        ¬ chain.length % P.DIFFICULTY_ADJUSTMENT_INTERVAL = 0) →
        calculate_next_target P chain = last.header.target) ∧
      (P.DIFFICULTY_ADJUSTMENT_INTERVAL + 1 ≤ chain.length →
        chain.length % P.DIFFICULTY_ADJUSTMENT_INTERVAL = 0 →
        calculate_next_target P chain =
          clamp_target P (last.header.target.map (fun (b : Nat) =>
            (max 0 (min 255 (Int.tdiv ((b : Int) *
              (last.header.timestamp -
                (chain.getD (chain.length - P.DIFFICULTY_ADJUSTMENT_INTERVAL - 1)
                  last).header.timestamp))
              (P.TARGET_BLOCK_TIME *
                (P.DIFFICULTY_ADJUSTMENT_INTERVAL : Int))))).toNat)))) := by
  rcases hlast : chain.getLast? with _ | last
  · have hnil : chain = [] := by
      cases chain with
      | nil => rfl
      | cons a l => simp [List.getLast?_concat] at hlast
    subst hnil
    exact ⟨fun _ => by simp [calculate_next_target], fun last hl => by simp at hl⟩
  · have hne : chain ≠ [] := by rintro rfl; simp at hlast
    refine ⟨fun h => absurd h hne, fun last2 hl2 => ?_⟩
    injection hl2 with hl2
    subst hl2
    constructor
    · intro hcase
      simp only [calculate_next_target, hlast]
      by_cases h1 : chain.length < P.DIFFICULTY_ADJUSTMENT_INTERVAL + 1
      · rw [if_pos h1]
      · rw [if_neg h1]
        rcases hcase with hc | hc
        · exact absurd hc h1
        · rw [if_pos hc]
    · intro hge hmod
      simp only [calculate_next_target, hlast]
      rw [if_neg (by omega), if_neg (by simp [hmod])]

/-- Witness for C8: the retarget branch at a concrete chain, with the scaled
bytes saturating at 255 (ratio 2 on byte 128). -/
theorem C8_calculate_next_target_witness :
    c8chain.getLast? = some (c8blk 2500) ∧
    c8params.DIFFICULTY_ADJUSTMENT_INTERVAL + 1 ≤ c8chain.length ∧
    c8chain.length % c8params.DIFFICULTY_ADJUSTMENT_INTERVAL = 0 ∧
    calculate_next_target c8params c8chain =
      clamp_target c8params ((c8blk 2500).header.target.map (fun (b : Nat) =>
        (max 0 (min 255 (Int.tdiv ((b : Int) *
          ((c8blk 2500).header.timestamp -
            (c8chain.getD
              (c8chain.length - c8params.DIFFICULTY_ADJUSTMENT_INTERVAL - 1)
              (c8blk 2500)).header.timestamp))
          (c8params.TARGET_BLOCK_TIME *
            (c8params.DIFFICULTY_ADJUSTMENT_INTERVAL : Int))))).toNat)) ∧
    calculate_next_target c8params c8chain = List.replicate 32 255 :=
  ⟨by decide, by decide, by decide,
    ((C8_calculate_next_target_cases c8params c8chain).2 (c8blk 2500)
      (by decide)).2 (by decide) (by decide),
    by decide⟩

/-! ## C9: the mempool reserved-outpoint invariant -/

lemma mem_foldl_insert (l : List V1.TxInput) (s : Finset OutPoint) (k : OutPoint) :
    (k ∈ l.foldl (fun s inp => insert (inp.txid, inp.index) s) s) ↔
      k ∈ s ∨ ∃ i ∈ l, k = (i.txid, i.index) := by
  induction l generalizing s with
  | nil => simp
  | cons i rest ih =>
    simp only [List.foldl_cons, ih, Finset.mem_insert, List.mem_cons]
    constructor
    · rintro (⟨h | h⟩ | ⟨j, hj, hk⟩)
      · exact Or.inr ⟨i, Or.inl rfl, h⟩
      · exact Or.inl h
      · exact Or.inr ⟨j, Or.inr hj, hk⟩
    · rintro (h | ⟨j, hj | hj, hk⟩)
      · exact Or.inl (Or.inr h)
      · subst hj; exact Or.inl (Or.inl hk)
      · exact Or.inr ⟨j, hj, hk⟩

lemma rebuild_spent_outpoints_mem (entries : List V1.MempoolEntry) (k : OutPoint) :
    (k ∈ V1.rebuild_spent_outpoints entries) ↔ ∃ e ∈ entries, k ∈ entryOutpoints e := by
  have gen : ∀ (es : List V1.MempoolEntry) (s : Finset OutPoint),
      (k ∈ es.foldl
        (fun s e => e.tx.inputs.foldl (fun s inp => insert (inp.txid, inp.index) s) s) s) ↔
      k ∈ s ∨ ∃ e ∈ es, k ∈ entryOutpoints e := by
    intro es
    induction es with
    | nil => simp
    | cons e rest ih =>
      intro s
      simp only [List.foldl_cons, ih, mem_foldl_insert, List.mem_cons]
      constructor
      · rintro (⟨h | ⟨i, hi, hk⟩⟩ | ⟨f, hf, hk⟩)
        · exact Or.inl h
        · exact Or.inr ⟨e, Or.inl rfl,
            by simp only [entryOutpoints, List.mem_map]; exact ⟨i, hi, hk.symm⟩⟩
        · exact Or.inr ⟨f, Or.inr hf, hk⟩
      · rintro (h | ⟨f, hf | hf, hk⟩)
        · exact Or.inl (Or.inl h)
        · subst hf
          simp only [entryOutpoints, List.mem_map] at hk
          obtain ⟨i, hi, hk⟩ := hk
          exact Or.inl (Or.inr ⟨i, hi, hk.symm⟩)
        · exact Or.inr ⟨f, hf, hk⟩
  unfold V1.rebuild_spent_outpoints
  rw [gen]
  simp

lemma accept_case_hres (m : V1.Mempool) (tx : V1.Transaction)
    (h4 : ¬ tx.inputs.any
      (fun inp => decide ((inp.txid, inp.index) ∈ m.spent_outpoints)) = true) :
    ∀ i ∈ tx.inputs, ((i.txid, i.index) : OutPoint) ∉ m.spent_outpoints := by
  intro i hi hmem
  exact h4 (by
    simp only [List.any_eq_true, decide_eq_true_eq]
    exact ⟨i, hi, hmem⟩)

lemma accept_case (P : Params) (m : V1.Mempool) (tx : V1.Transaction)
    (utxos : UTXOSet) (now : Int) (fee : Int) (h : MempoolInv m)
    (h4 : ¬ tx.inputs.any
      (fun inp => decide ((inp.txid, inp.index) ∈ m.spent_outpoints)) = true) :
    MempoolInv
      ⟨m.entries ++ [⟨tx, fee, tx.serialized_size, now⟩],
        tx.inputs.foldl (fun s inp => insert (inp.txid, inp.index) s)
          m.spent_outpoints⟩ := by
  have hres := accept_case_hres m tx h4
  constructor
  · intro k
    simp only [mem_foldl_insert, List.mem_append, List.mem_singleton]
    rw [h.1 k]
    constructor
    · rintro (⟨e, he, hk⟩ | ⟨i, hi, hk⟩)
      · exact ⟨e, Or.inl he, hk⟩
      · refine ⟨⟨tx, fee, tx.serialized_size, now⟩, Or.inr rfl, ?_⟩
        simp only [entryOutpoints, List.mem_map]
        exact ⟨i, hi, hk.symm⟩
    · rintro ⟨e, he | he, hk⟩
      · exact Or.inl ⟨e, he, hk⟩
      · subst he
        simp only [entryOutpoints, List.mem_map] at hk
        obtain ⟨i, hi, hk⟩ := hk
        exact Or.inr ⟨i, hi, hk.symm⟩
  · rw [List.pairwise_append]
    refine ⟨h.2, by simp, ?_⟩
    intro a ha b hb k hka hkb
    simp only [List.mem_singleton] at hb
    subst hb
    simp only [entryOutpoints, List.mem_map] at hkb
    obtain ⟨i, hi, hk⟩ := hkb
    have : k ∈ m.spent_outpoints := (h.1 k).2 ⟨a, ha, hka⟩
    rw [← hk] at this
    exact hres i hi this

lemma add_transaction_inv (P : Params) (m : V1.Mempool) (tx : V1.Transaction)
    (utxos : UTXOSet) (now : Int) (h : MempoolInv m) :
    MempoolInv (V1.add_transaction P m tx utxos now).2 := by
  simp only [V1.add_transaction]
  by_cases h1 : tx.inputs.isEmpty = true
  · rw [if_pos h1]; exact h
  · rw [if_neg h1]
    by_cases h2 : V1.MAX_TX_SIZE < tx.serialized_size
    · rw [if_pos h2]; exact h
    · rw [if_neg h2]
      by_cases h3 : V1.validate_transaction P tx utxos = true
      · rw [if_neg (not_not_intro h3)]
        by_cases h4 : tx.inputs.any
            (fun inp => decide ((inp.txid, inp.index) ∈ m.spent_outpoints)) = true
        · rw [if_pos h4]; exact h
        · rw [if_neg h4]
          rcases hfee : V1.calculate_fee tx utxos with _ | fee
          · simp only [hfee]; exact h
          · simp only [hfee]
            by_cases h5 : fee ≤ 0
            · rw [if_pos h5]; exact h
            · rw [if_neg h5]
              -- accepted: entries gain one element, the reserved set its outpoints
              exact accept_case P m tx utxos now fee h h4
      · rw [if_pos h3]; exact h

lemma remove_confirmed_inv (m : V1.Mempool) (confirmed : List V1.Transaction)
    (h : MempoolInv m) : MempoolInv (V1.remove_confirmed m confirmed) := by
  unfold V1.remove_confirmed
  constructor
  · intro k
    exact rebuild_spent_outpoints_mem _ k
  · exact h.2.sublist (List.filter_sublist _)

lemma addList_inv (P : Params) (utxos : UTXOSet) (now : Int) :
    ∀ (txs : List V1.Transaction) (m : V1.Mempool), MempoolInv m →
      MempoolInv (txs.foldl (fun m tx => (V1.add_transaction P m tx utxos now).2) m) := by
  intro txs
  induction txs with
  | nil => exact fun m h => h
  | cons tx rest ih =>
    intro m h
    exact ih _ (add_transaction_inv P m tx utxos now h)

lemma resurrect_inv (P : Params) (utxos : UTXOSet) (now : Int)
    (orphaned : List V1.Block) (m : V1.Mempool) (h : MempoolInv m) :
    MempoolInv (V1.resurrect_from_orphans P m orphaned utxos now) := by
  unfold V1.resurrect_from_orphans
  induction orphaned generalizing m with
  | nil => exact h
  | cons b rest ih =>
    simp only [List.foldl_cons]
    exact ih _ (addList_inv P utxos now _ m h)

/-- C9: after any mempool operation — admission, confirmed removal, or
reorg resurrection — the reserved-outpoint set equals exactly the union of
the input outpoints of the current entries, and no two entries share an
outpoint. -/
theorem C9_mempool_reserved_invariant (P : Params) (m : V1.Mempool)
    (tx : V1.Transaction) (utxos : UTXOSet) (now : Int)
    (confirmed : List V1.Transaction) (orphaned : List V1.Block)
    (h : MempoolInv m) :
    MempoolInv (V1.add_transaction P m tx utxos now).2 ∧
    MempoolInv (V1.remove_confirmed m confirmed) ∧
    MempoolInv (V1.resurrect_from_orphans P m orphaned utxos now) :=
  ⟨add_transaction_inv P m tx utxos now h,
    remove_confirmed_inv m confirmed h,
    resurrect_inv P utxos now orphaned m h⟩

/-- Witness for C9: the empty mempool satisfies the invariant and the three
operations preserve it on concrete inputs. -/
theorem C9_mempool_reserved_witness :
    MempoolInv V1.Mempool.new ∧
    (MempoolInv (V1.add_transaction c8params V1.Mempool.new ⟨[⟨[1], 0, [], []⟩], []⟩ [] 5).2 ∧
    MempoolInv (V1.remove_confirmed V1.Mempool.new []) ∧
    MempoolInv (V1.resurrect_from_orphans c8params V1.Mempool.new [] [] 5)) := by
  have hinv : MempoolInv V1.Mempool.new := by
    constructor
    · intro k; simp [V1.Mempool.new]
    · simp [V1.Mempool.new]
  exact ⟨hinv,
    C9_mempool_reserved_invariant c8params V1.Mempool.new ⟨[⟨[1], 0, [], []⟩], []⟩
      [] 5 [] [] hinv⟩

/-! ## C6: coinbase maturity on the live validation path -/

lemma vaab_true_elim (P : Params) (now : Int) (st : Blockchain) (block : Block)
    (st2 : Blockchain)
    (h : validate_and_add_block P now st block = (true, st2)) :
    (heightOk st block = true ∧ timeOk P now st block = true ∧
      block.header.target = calculate_next_target P st.blocks ∧
      verify_pow block = true ∧
      merkle_root block.transactions = block.header.merkle_root ∧
      sizeOk P block = true ∧ coinbaseOk P block = true ∧ txsOk P st block = true) ∧
    st2 = ⟨st.blocks ++ [block], rebuild_utxos (st.blocks ++ [block]), st.mempool⟩ := by
  unfold validate_and_add_block at h
  by_cases hc : (heightOk st block && timeOk P now st block &&
      decide (block.header.target = calculate_next_target P st.blocks) &&
      verify_pow block &&
      decide (merkle_root block.transactions = block.header.merkle_root) &&
      sizeOk P block && coinbaseOk P block && txsOk P st block) = true
  · rw [if_pos hc] at h
    simp only [Bool.and_eq_true, decide_eq_true_eq] at hc
    injection h with h1 h2
    exact ⟨⟨hc.1.1.1.1.1.1.1, hc.1.1.1.1.1.1.2, hc.1.1.1.1.1.2, hc.1.1.1.1.2,
      hc.1.1.1.2, hc.1.1.2, hc.1.2, hc.2⟩, h2.symm⟩
  · rw [if_neg hc] at h
    injection h with h1 h2
    exact absurd h1 (by simp)

lemma vtLoop_mature (P : Params) (sighash : List Nat) (utxos : UTXOSet)
    (h : Nat) :
    ∀ (inputs : List TxInput) (seen : List OutPoint) (acc s : Nat),
      vtLoop P sighash utxos h inputs seen acc = some s →
      ∀ inp ∈ inputs, ∀ u, utxoGet utxos (inp.txid, inp.index) = some u →
        u.is_coinbase = true → u.height + COINBASE_MATURITY ≤ h := by
  intro inputs
  induction inputs with
  | nil => intro seen acc s _ inp hmem; simp at hmem
  | cons inp0 rest ih =>
    intro seen acc s hsome inp hmem u hget hcb
    simp only [vtLoop] at hsome
    by_cases hseen : (inp0.txid, inp0.index) ∈ seen
    · simp [hseen] at hsome
    · rw [if_neg hseen] at hsome
      rcases hget0 : utxoGet utxos (inp0.txid, inp0.index) with _ | u0
      · rw [hget0] at hsome; simp at hsome
      · rw [hget0] at hsome
        simp only at hsome
        by_cases hmat : (u0.is_coinbase && decide (h < u0.height + COINBASE_MATURITY)) = true
        · simp [hmat] at hsome
        · rw [if_neg hmat] at hsome
          rcases hpk : P.secpParse inp0.pubkey with _ | pkSer
          · rw [hpk] at hsome; simp at hsome
          · rw [hpk] at hsome
            simp only at hsome
            by_cases hhash : pubkey_hash pkSer = u0.pubkey_hash
            · rw [if_neg (by simp [hhash])] at hsome
              by_cases hsig : verify_signature P sighash inp0.signature pkSer = true
              · rw [if_neg (by simp [hsig])] at hsome
                rcases List.mem_cons.mp hmem with hmem0 | hmemr
                · subst hmem0
                  rw [hget0] at hget
                  injection hget with hget
                  subst hget
                  simp only [Bool.and_eq_true, decide_eq_true_eq, not_and, not_lt] at hmat
                  exact hmat hcb
                · exact ih _ _ _ hsome inp hmemr u hget hcb
              · rw [if_pos (by simp [hsig])] at hsome; simp at hsome
            · rw [if_pos (by simp [hhash])] at hsome; simp at hsome

lemma validate_transaction_mature (P : Params) (tx : Transaction)
    (utxos : UTXOSet) (h : Nat)
    (hv : validate_transaction P tx utxos h = true) :
    ∀ inp ∈ tx.inputs, ∀ u, utxoGet utxos (inp.txid, inp.index) = some u →
      u.is_coinbase = true → u.height + COINBASE_MATURITY ≤ h := by
  unfold validate_transaction at hv
  by_cases hne : tx.inputs.isEmpty = true
  · intro inp hmem
    rw [List.isEmpty_iff] at hne
    rw [hne] at hmem
    simp at hmem
  · rw [if_neg hne] at hv
    rcases hloop : vtLoop P tx.sighash utxos h tx.inputs [] 0 with _ | s
    · rw [hloop] at hv; simp at hv
    · exact vtLoop_mature P tx.sighash utxos h tx.inputs [] 0 s hloop

/-- C6: on the live validation path (`core::chain` with
`core::validation`), every successfully added block at height `H` spends no
coinbase UTXO created at height `H_c` unless `H_c + COINBASE_MATURITY ≤ H`
— the unconditional maturity check of `core::validation` enforces the rule
at every height, and acceptance preserves the replay invariant, so the
property holds along every chain built by repeated successful
`validate_and_add_block` calls. -/
theorem C6_coinbase_maturity_enforced (P : Params) (now : Int)
    (st : Blockchain) (block : Block) (st2 : Blockchain)
    (hinv : ChainInv st)
    (hadd : validate_and_add_block P now st block = (true, st2)) :
    ChainInv st2 ∧
    ∀ tx ∈ block.transactions, ∀ inp ∈ tx.inputs, ∀ u,
      utxoGet (rebuild_utxos st.blocks) (inp.txid, inp.index) = some u →
      u.is_coinbase = true →
      u.height + COINBASE_MATURITY ≤ block.header.height := by
  obtain ⟨⟨_, _, _, _, _, _, _, htxs⟩, hst2⟩ := vaab_true_elim P now st block st2 hadd
  constructor
  · rw [hst2]; rfl
  · intro tx htx inp hinp u hget hcb
    unfold txsOk at htxs
    rw [List.all_eq_true] at htxs
    have htx2 := htxs tx htx
    rw [Bool.and_eq_true] at htx2
    have hv := htx2.1
    rw [hinv] at hv
    exact validate_transaction_mature P tx (rebuild_utxos st.blocks)
      block.header.height hv inp hinp u hget hcb

set_option maxRecDepth 100000 in
/-- Witness for C6: a concrete successful `validate_and_add_block` run from
the empty state, with the maturity conclusion. -/
theorem C6_coinbase_maturity_witness :
    ChainInv Blockchain.new ∧
    (ChainInv (validate_and_add_block c8params 0 Blockchain.new c6block).2 ∧
      ∀ tx ∈ c6block.transactions, ∀ inp ∈ tx.inputs, ∀ u,
        utxoGet (rebuild_utxos Blockchain.new.blocks) (inp.txid, inp.index) = some u →
        u.is_coinbase = true →
        u.height + COINBASE_MATURITY ≤ c6block.header.height) :=
  ⟨rfl, C6_coinbase_maturity_enforced c8params 0 Blockchain.new c6block
    (validate_and_add_block c8params 0 Blockchain.new c6block).2 rfl (by decide)⟩

/-! ## Reorg machinery: closed forms and eliminations -/

lemma disconnectLoopF_spec :
    ∀ (fuel : Nat) (blocks : List Block) (h : Nat) (acc : List Block),
      blocks.length ≤ fuel →
      disconnectLoopF fuel blocks h acc = (blocks.take h, acc ++ (blocks.drop h).reverse) := by
  intro fuel
  induction fuel with
  | zero =>
    intro blocks h acc hlen
    have hnil : blocks = [] := List.length_eq_zero.mp (Nat.le_zero.mp hlen)
    subst hnil
    simp [disconnectLoopF]
  | succ fuel ih =>
    intro blocks h acc hlen
    simp only [disconnectLoopF]
    by_cases hlt : h < blocks.length
    · rw [if_pos hlt]
      rcases hlast : blocks.getLast? with _ | b
      · rw [List.getLast?_eq_none_iff] at hlast
        subst hlast
        simp at hlt
      · have hsplit : blocks.dropLast ++ [b] = blocks :=
          List.dropLast_append_getLast? b hlast
        have hdl : blocks.dropLast.length = blocks.length - 1 := List.length_dropLast blocks
        show disconnectLoopF fuel blocks.dropLast h (acc ++ [b]) = _
        rw [ih blocks.dropLast h (acc ++ [b]) (by omega)]
        have htake : blocks.dropLast.take h = blocks.take h := by
          rw [List.dropLast_eq_take, List.take_take]
          congr 1
          omega
        have hdrop : blocks.drop h = blocks.dropLast.drop h ++ [b] := by
          conv_lhs => rw [← hsplit]
          rw [List.drop_append_of_le_length (by omega)]
        rw [htake, hdrop]
        simp
    · rw [if_neg hlt]
      rw [List.take_of_length_le (by omega), List.drop_eq_nil_of_le (by omega)]
      simp

lemma disconnect_to_height_spec (st : Blockchain) (h : Nat) :
    disconnect_to_height st h =
      ((st.blocks.drop h).reverse,
        ⟨st.blocks.take h, rebuild_utxos (st.blocks.take h), st.mempool⟩) := by
  unfold disconnect_to_height
  rw [disconnectLoopF_spec st.blocks.length st.blocks h [] (le_refl _)]
  rfl

lemma maybe_reorg_some_elim (P : Params) (st : Blockchain) (cand : List Block)
    (orph : List Block) (st2 : Blockchain)
    (h : maybe_reorg P st cand = (some orph, st2)) :
    validate_chain P cand = true ∧
    cumulative_work st.blocks < cumulative_work cand ∧
    orph = (st.blocks.drop (forkHeight st.blocks cand)).reverse ∧
    st2 = ⟨cand, rebuild_utxos cand, st.mempool⟩ := by
  unfold maybe_reorg at h
  by_cases h1 : validate_chain P cand = true
  · rw [if_neg (not_not_intro h1)] at h
    by_cases h2 : cumulative_work cand ≤ cumulative_work st.blocks
    · rw [if_pos h2] at h
      injection h with ha _
      simp at ha
    · rw [if_neg h2] at h
      simp only [disconnect_to_height_spec, Prod.mk.injEq, Option.some.injEq] at h
      exact ⟨h1, by omega, h.1.symm, h.2.symm⟩
  · rw [if_pos h1] at h
    injection h with ha _
    simp at ha

lemma validLinks_true_elim (P : Params) :
    ∀ (rest : List Block) (pre : List Block) (prev : Block),
      validLinks P pre prev rest = true →
      ∀ i p b, (prev :: rest)[i]? = some p → (prev :: rest)[i + 1]? = some b →
        b.header.height = p.header.height + 1 ∧
        b.header.prev_hash = p.hash ∧
        b.header.target = calculate_next_target P ((pre ++ [prev]) ++ rest.take i) ∧
        verify_pow b = true ∧
        merkle_root b.transactions = b.header.merkle_root := by
  intro rest
  induction rest with
  | nil =>
    intro pre prev _ i p b hp hb
    rcases i with _ | i <;> simp at hb
  | cons b0 rest ih =>
    intro pre prev hv i p b hp hb
    simp only [validLinks, Bool.and_eq_true, decide_eq_true_eq] at hv
    obtain ⟨⟨⟨⟨⟨hh, hph⟩, ht⟩, hpow⟩, hm⟩, hrec⟩ := hv
    rcases i with _ | i
    · simp only [List.getElem?_cons_zero] at hp
      simp only [List.getElem?_cons_succ, List.getElem?_cons_zero] at hb
      injection hp with hp
      injection hb with hb
      subst hp
      subst hb
      simpa using ⟨hh, hph, ht, hpow, hm⟩
    · rw [List.getElem?_cons_succ] at hp hb
      have := ih (pre ++ [prev]) b0 hrec i p b hp hb
      simpa [List.take_succ_cons, List.append_assoc] using this

/-! ## C1: what reorg candidate validation actually checks -/

/-- C1 (amended): a candidate is adopted by `maybe_reorg` only if it is
non-empty, has strictly more cumulative work than the current chain, and
every block at index `i ≥ 1` passes the linkage, expected-target,
proof-of-work and merkle checks against its predecessor and prefix.  The
block at index 0 and the timestamp, block-size, coinbase and §4.2
transaction rules of §4.3 are not checked by `validate_chain`
(`C1_counterexample` adopts a candidate whose only block violates them). -/
theorem C1_maybe_reorg_checks (P : Params) (st : Blockchain)
    (cand orph : List Block) (st2 : Blockchain)
    (h : maybe_reorg P st cand = (some orph, st2)) :
    cand ≠ [] ∧
    cumulative_work st.blocks < cumulative_work cand ∧
    st2.blocks = cand ∧
    ∀ i p b, cand[i]? = some p → cand[i + 1]? = some b →
      b.header.height = p.header.height + 1 ∧
      b.header.prev_hash = p.hash ∧
      b.header.target = calculate_next_target P (cand.take (i + 1)) ∧
      verify_pow b = true ∧
      merkle_root b.transactions = b.header.merkle_root := by
  obtain ⟨hvc, hwork, _, hst2⟩ := maybe_reorg_some_elim P st cand orph st2 h
  rcases cand with _ | ⟨b0, rest⟩
  · simp [validate_chain] at hvc
  · refine ⟨by simp, hwork, by rw [hst2], ?_⟩
    intro i p b hp hb
    unfold validate_chain at hvc
    have := validLinks_true_elim P rest [] b0 hvc i p b hp hb
    simpa [List.take_succ_cons] using this

set_option maxRecDepth 100000 in
/-- C1 counterexample: from the empty chain, `maybe_reorg` adopts a
one-block candidate whose only block (index 0) fails proof-of-work, the
merkle commitment and the coinbase rule of §4.3 — index 0 is never
validated. -/
theorem C1_counterexample :
    maybe_reorg c8params Blockchain.new [c1bad] =
      (some [], ⟨[c1bad], rebuild_utxos [c1bad], []⟩) ∧
    verify_pow c1bad = false ∧
    (∀ cb, c1bad.transactions.head? = some cb → cb.inputs ≠ []) ∧
    merkle_root c1bad.transactions ≠ c1bad.header.merkle_root := by
  refine ⟨?_, ?_, ?_, ?_⟩
  · decide
  · decide
  · intro cb hcb
    injection hcb with hcb
    subst hcb
    decide
  · decide

/-! ## C7: the orphan list includes the fork-height block -/

/-- C7 (amended): on every successful `maybe_reorg`, with the fork height
computed by the source's loop (the last index at which the chains' hashes
agree, 0 when even index 0 disagrees), the orphan list is exactly the
current chain's blocks at indexes **greater than or equal to** the fork
height, newest first — `disconnect_to_height(h)` keeps only `h` blocks, so
the block at the fork height itself (a shared genesis included) is
disconnected and returned as an orphan. -/
theorem C7_reorg_orphans (P : Params) (st : Blockchain) (cand : List Block)
    (orph : List Block) (st2 : Blockchain)
    (h : maybe_reorg P st cand = (some orph, st2)) :
    orph = (st.blocks.drop (forkHeight st.blocks cand)).reverse ∧
    st2.blocks = cand := by
  obtain ⟨_, _, horph, hst2⟩ := maybe_reorg_some_elim P st cand orph st2 h
  exact ⟨horph, by rw [hst2]⟩

set_option maxRecDepth 1000000 in
/-- C7 counterexample: a successful reorg whose candidate shares the genesis
`c7a0` at index 0 (the fork height) still returns that genesis in the orphan
list: the orphans are `[c7a1, c7a0]`, not just the blocks at indexes
strictly greater than the fork height. -/
theorem C7_counterexample :
    maybe_reorg c8params c7st [c7a0, c7b1] =
      (some [c7a1, c7a0], ⟨[c7a0, c7b1], rebuild_utxos [c7a0, c7b1], []⟩) ∧
    forkHeight c7st.blocks [c7a0, c7b1] = 0 ∧
    c7st.blocks[0]? = some c7a0 ∧ ([c7a0, c7b1] : List Block)[0]? = some c7a0 :=
  ⟨by decide, by decide, rfl, rfl⟩

set_option maxRecDepth 1000000 in
/-- Witness for C1 at the concrete adopted candidate. -/
theorem C1_maybe_reorg_checks_witness :
    maybe_reorg c8params Blockchain.new [c1bad] =
      (some [], ⟨[c1bad], rebuild_utxos [c1bad], []⟩) ∧
    ([c1bad] ≠ ([] : List Block) ∧
      cumulative_work Blockchain.new.blocks < cumulative_work [c1bad] ∧
      (⟨[c1bad], rebuild_utxos [c1bad], []⟩ : Blockchain).blocks = [c1bad] ∧
      ∀ i p b, ([c1bad] : List Block)[i]? = some p →
        ([c1bad] : List Block)[i + 1]? = some b →
        b.header.height = p.header.height + 1 ∧
        b.header.prev_hash = p.hash ∧
        b.header.target = calculate_next_target c8params (([c1bad] : List Block).take (i + 1)) ∧
        verify_pow b = true ∧
        merkle_root b.transactions = b.header.merkle_root) :=
  ⟨by decide,
    C1_maybe_reorg_checks c8params Blockchain.new [c1bad] []
      ⟨[c1bad], rebuild_utxos [c1bad], []⟩ (by decide)⟩

set_option maxRecDepth 1000000 in
/-- Witness for C7 at the concrete successful reorg. -/
theorem C7_reorg_orphans_witness :
    maybe_reorg c8params c7st [c7a0, c7b1] =
      (some [c7a1, c7a0], ⟨[c7a0, c7b1], rebuild_utxos [c7a0, c7b1], []⟩) ∧
    ([c7a1, c7a0] =
      (c7st.blocks.drop (forkHeight c7st.blocks [c7a0, c7b1])).reverse ∧
      (⟨[c7a0, c7b1], rebuild_utxos [c7a0, c7b1], []⟩ : Blockchain).blocks =
        [c7a0, c7b1]) :=
  ⟨by decide,
    C7_reorg_orphans c8params c7st [c7a0, c7b1] [c7a1, c7a0]
      ⟨[c7a0, c7b1], rebuild_utxos [c7a0, c7b1], []⟩ (by decide)⟩

/-! ## C4: block acceptance and the coinbase cap (fees are not credited) -/

lemma vaab_fst (P : Params) (now : Int) (st : Blockchain) (block : Block) :
    (validate_and_add_block P now st block).1 =
      (heightOk st block && timeOk P now st block &&
        decide (block.header.target = calculate_next_target P st.blocks) &&
        verify_pow block &&
        decide (merkle_root block.transactions = block.header.merkle_root) &&
        sizeOk P block && coinbaseOk P block && txsOk P st block) := by
  unfold validate_and_add_block
  by_cases hc : (heightOk st block && timeOk P now st block &&
      decide (block.header.target = calculate_next_target P st.blocks) &&
      verify_pow block &&
      decide (merkle_root block.transactions = block.header.merkle_root) &&
      sizeOk P block && coinbaseOk P block && txsOk P st block) = true
  · rw [if_pos hc, hc]
  · rw [if_neg hc]
    exact (Bool.not_eq_true _).mp hc |>.symm

lemma heightOk_iff (st : Blockchain) (block : Block) :
    heightOk st block = true ↔
      ((st.blocks = [] → block.header.height = 0) ∧
        ∀ prev, st.blocks.getLast? = some prev →
          block.header.height = st.blocks.length ∧
          block.header.prev_hash = prev.hash) := by
  unfold heightOk
  rcases h : st.blocks.getLast? with _ | prev
  · have hnil : st.blocks = [] := List.getLast?_eq_none_iff.mp h
    simp [hnil]
  · have hne : st.blocks ≠ [] := by intro h2; rw [h2] at h; simp at h
    simp [hne]

lemma timeOk_iff (P : Params) (now : Int) (st : Blockchain) (block : Block) :
    timeOk P now st block = true ↔
      (st.blocks ≠ [] →
        (median_time_past P st.blocks < block.header.timestamp ∧
          block.header.timestamp ≤ now + P.MAX_FUTURE_DRIFT)) := by
  unfold timeOk
  by_cases h : st.blocks.isEmpty = true
  · rw [List.isEmpty_iff] at h
    simp [h]
  · rw [List.isEmpty_iff] at h
    simp [h]

lemma coinbaseOk_iff (P : Params) (block : Block) :
    coinbaseOk P block = true ↔
      ∀ cb, block.transactions.head? = some cb →
        cb.inputs = [] ∧
        cb.outputs.foldl (fun s o => s + o.value) 0 ≤
          P.block_reward block.header.height := by
  unfold coinbaseOk
  rcases h : block.transactions.head? with _ | cb
  · simp
  · simp [List.isEmpty_iff]

lemma txsOk_iff (P : Params) (st : Blockchain) (block : Block) :
    txsOk P st block = true ↔
      ∀ tx ∈ block.transactions,
        validate_transaction P tx st.utxos block.header.height = true ∧
        (CONSENSUS_V2_HEIGHT ≤ block.header.height →
          enforce_coinbase_maturity st tx block.header.height = true) := by
  unfold txsOk
  simp only [List.all_eq_true, Bool.and_eq_true]
  refine forall_congr' (fun tx => forall_congr' (fun htx => and_congr Iff.rfl ?_))
  by_cases hgate : CONSENSUS_V2_HEIGHT ≤ block.header.height
  · simp [hgate]
  · simp [hgate]

/-- C4 (amended): `validate_and_add_block` accepts a candidate block if and
only if all the §4.3 checks hold, with the coinbase cap being
`Σ coinbase outputs ≤ block_reward(H)` alone — transaction fees are **not**
added to the cap (`C4_counterexample` exhibits a block meeting every other
rule whose coinbase equals `block_reward(H)` plus a positive fee and is
rejected). -/
theorem C4_block_acceptance_iff (P : Params) (now : Int) (st : Blockchain)
    (block : Block) :
    (validate_and_add_block P now st block).1 = true ↔
      (((st.blocks = [] → block.header.height = 0) ∧
        ∀ prev, st.blocks.getLast? = some prev →
          block.header.height = st.blocks.length ∧
          block.header.prev_hash = prev.hash) ∧
      (st.blocks ≠ [] →
        (median_time_past P st.blocks < block.header.timestamp ∧
          block.header.timestamp ≤ now + P.MAX_FUTURE_DRIFT)) ∧
      block.header.target = calculate_next_target P st.blocks ∧
      verify_pow block = true ∧
      merkle_root block.transactions = block.header.merkle_root ∧
      (serBlock block).length ≤ P.MAX_BLOCK_SIZE ∧
      (∀ cb, block.transactions.head? = some cb →
        cb.inputs = [] ∧
        cb.outputs.foldl (fun s o => s + o.value) 0 ≤
          P.block_reward block.header.height) ∧
      ∀ tx ∈ block.transactions,
        validate_transaction P tx st.utxos block.header.height = true ∧
        (CONSENSUS_V2_HEIGHT ≤ block.header.height →
          enforce_coinbase_maturity st tx block.header.height = true)) := by
  rw [vaab_fst]
  simp only [Bool.and_eq_true, decide_eq_true_eq]
  rw [heightOk_iff, timeOk_iff, coinbaseOk_iff, txsOk_iff]
  unfold sizeOk
  simp only [decide_eq_true_eq]
  tauto

set_option maxRecDepth 1000000 in
/-- C4 counterexample: a block meeting every §4.3 rule other than the
coinbase cap, whose coinbase sum is `block_reward(1) + 1` with its one
non-coinbase transaction paying fee `5 - 4 = 1 > 0`, is rejected: the code
compares the coinbase sum against `block_reward(H)` alone. -/
theorem C4_counterexample :
    (validate_and_add_block c8params 3000 c4st c4block).1 = false ∧
    c4block.transactions.head? = some c4cb ∧
    c4cb.inputs = [] ∧
    utxoGet c4st.utxos (Transaction.txid c4prevtx, 0) =
      some ⟨5, sha256 c4pk, 0, false⟩ ∧
    c4spend.outputs.foldl (fun s o => s + o.value) 0 = 4 ∧
    c4cb.outputs.foldl (fun s o => s + o.value) 0 =
      c8params.block_reward c4block.header.height + 1 ∧
    heightOk c4st c4block = true ∧
    timeOk c8params 3000 c4st c4block = true ∧
    c4block.header.target = calculate_next_target c8params c4st.blocks ∧
    verify_pow c4block = true ∧
    merkle_root c4block.transactions = c4block.header.merkle_root ∧
    sizeOk c8params c4block = true ∧
    (∀ tx ∈ c4block.transactions,
      validate_transaction c8params tx c4st.utxos c4block.header.height = true) :=
  ⟨by decide, rfl, rfl, by decide, by decide, by decide, by decide, by decide,
    by decide, by decide, by decide, by decide, by decide⟩

end Bitcoin
